import Mathlib

/-!
Verification of the crypto RSI alert dashboard (`app.py`).

Python floats are modelled as rationals (`ℚ`); network calls are modelled by
passing the upstream's responses as explicit arguments; exceptions are
modelled with `Except` / `Option`.
-/

namespace RsiApp

/-- One JSON row of an OHLC response: either a JSON array of numbers, or any
other JSON value (models the `isinstance(row, list)` test in
`closes_from_ohlc`). -/
inductive JsonRow where
  | arr (xs : List ℚ)
  | other
deriving DecidableEq, Repr

/-- `closes_from_ohlc` (app.py line 94-95):
`[row[4] for row in ohlc if isinstance(row, list) and len(row) >= 5]`. -/
def closes_from_ohlc (ohlc : List JsonRow) : List ℚ :=
  ohlc.filterMap (fun row =>
    match row with
    | .arr xs => if 5 ≤ xs.length then some (xs.getD 4 0) else none
    | .other => none)

/-- A row is kept by `closes_from_ohlc` iff it is a list of length ≥ 5. -/
def wellFormedRow : JsonRow → Bool
  | .arr xs => decide (5 ≤ xs.length)
  | .other => false

/-- The `close` field (index 4) of a row; 0 for non-array rows. -/
def closeOf : JsonRow → ℚ
  | .arr xs => xs.getD 4 0
  | .other => 0

/-- `compute_rsi` (app.py lines 98-118), translated statement by statement:
the guard `len(closes) < period + 1`, the seed loop over
`range(1, period + 1)`, the Wilder update loop over
`range(period + 1, len(closes))` as a fold, and the final
`abs(avg_loss) < 1e-12` branch. -/
def compute_rsi (closes : List ℚ) (period : ℕ) : Option ℚ :=
  if closes.length < period + 1 then none
  else
    let change : ℕ → ℚ := fun i => closes.getD i 0 - closes.getD (i - 1) 0
    let gains := (List.range' 1 period).map (fun i => max (change i) 0)
    let losses := (List.range' 1 period).map (fun i => |min (change i) 0|)
    let avg_gain := gains.sum / (period : ℚ)
    let avg_loss := losses.sum / (period : ℚ)
    let final := (List.range' (period + 1) (closes.length - (period + 1))).foldl
      (fun avgs i =>
        ((avgs.1 * ((period : ℚ) - 1) + max (change i) 0) / (period : ℚ),
         (avgs.2 * ((period : ℚ) - 1) + |min (change i) 0|) / (period : ℚ)))
      (avg_gain, avg_loss)
    if |final.2| < 1 / 10 ^ 12 then some 100
    else some (100 - 100 / (1 + final.1 / final.2))

/-- Spec-side gain of one delta: `max(close_i - close_{i-1}, 0)`. -/
def gainOf (d : ℚ) : ℚ := max d 0

/-- Spec-side loss of one delta: `max(close_{i-1} - close_i, 0)`. -/
def lossOf (d : ℚ) : ℚ := max (-d) 0

/-- The per-step deltas `close_i - close_{i-1}`, in chronological order. -/
def deltas (closes : List ℚ) : List ℚ :=
  List.zipWith (fun prev next => next - prev) closes closes.tail

/-- One Wilder smoothing update, as the spec words it:
`avgGain = (avgGain*(period-1) + gain)/period`,
`avgLoss = (avgLoss*(period-1) + loss)/period`. -/
def wilderStep (period : ℕ) (avgs : ℚ × ℚ) (d : ℚ) : ℚ × ℚ :=
  ((avgs.1 * ((period : ℚ) - 1) + gainOf d) / (period : ℚ),
   (avgs.2 * ((period : ℚ) - 1) + lossOf d) / (period : ℚ))

/-- The `(avgGain, avgLoss)` pair following the specification text: seed both
averages as the means of the gains and losses of the first `period` deltas,
then apply the Wilder update once per subsequent delta in chronological
order. -/
def wilderAvgs (closes : List ℚ) (period : ℕ) : ℚ × ℚ :=
  let ds := deltas closes
  let seed := ds.take period
  (ds.drop period).foldl (wilderStep period)
    (((seed.map gainOf).sum / (period : ℚ)), ((seed.map lossOf).sum / (period : ℚ)))

/-- Python's `round` to 0 digits: round half to even (banker's rounding). -/
def round_half_even (x : ℚ) : ℤ :=
  let f := ⌊x⌋
  let frac := x - f
  if frac < 1 / 2 then f
  else if 1 / 2 < frac then f + 1
  else if 2 ∣ f then f else f + 1

/-- `round(x, 2)` as used in the report rows (app.py line 156). -/
def round2 (x : ℚ) : ℚ := (round_half_even (x * 100) : ℚ) / 100

/-- Outcome of one HTTP attempt against the OHLC endpoint: a success payload,
an HTTP 429, or any other HTTP failure. -/
inductive HttpResp where
  | success (payload : List JsonRow)
  | rateLimited
  | httpFailure
deriving DecidableEq, Repr

/-- `fetch_ohlc` (app.py lines 82-91), with the upstream's two possible
responses passed explicitly: the result of the first attempt and, when the
first attempt returned HTTP 429, the result of the single retry. The second
component counts the seconds slept (`time.sleep(5)` before the one retry).
A first non-429 failure propagates at once; a failure on the retry also
propagates; a success payload is returned as is. -/
def fetch_ohlc (attempt1 attempt2 : HttpResp) : Except Unit (List JsonRow) × ℕ :=
  match attempt1 with
  | .success payload => (.ok payload, 0)
  | .httpFailure => (.error (), 0)
  | .rateLimited =>
    match attempt2 with
    | .success payload => (.ok payload, 5)
    | .rateLimited => (.error (), 5)
    | .httpFailure => (.error (), 5)

/-- One asset object of the markets endpoint (`id,name,symbol,current_price`). -/
structure Coin where
  id : String
  name : String
  symbol : String
  current_price : Option ℚ
deriving DecidableEq, Repr

instance : Inhabited Coin := ⟨⟨"", "", "", none⟩⟩

/-- The paging loop of `fetch_top_coins` (app.py lines 52-70): while fewer
than `n` results, request the next page (`pages page` models the upstream's
answer; `.error` models a non-success status raised by `raise_for_status`),
stop on an empty page or a short page, otherwise accumulate and continue. -/
def ftc_loop (pages : ℕ → Except Unit (List Coin)) (n per_page : ℕ)
    (page : ℕ) (results : List Coin) : Except Unit (List Coin) :=
  if h : results.length < n then
    match pages page with
    | .error e => .error e
    | .ok batch =>
      if hb : batch.isEmpty then .ok results
      else if hs : batch.length < per_page then .ok (results ++ batch)
      else ftc_loop pages n per_page (page + 1) (results ++ batch)
  else .ok results
termination_by n - results.length
decreasing_by
  have hpos : 0 < batch.length := by
    cases batch with
    | nil => simp at hb
    | cons a l => simp
  simp only [List.length_append]
  omega

/-- `fetch_top_coins` (app.py lines 46-71): page size `min(250, n)`, pages
numbered from 1, empty accumulator, final `results[:n]`. -/
def fetch_top_coins (pages : ℕ → Except Unit (List Coin)) (n : ℕ) :
    Except Unit (List Coin) :=
  match ftc_loop pages n (min 250 n) 1 [] with
  | .error e => .error e
  | .ok results => .ok (results.take n)

/-- Alert direction: Oversold for the low threshold, Overbought for the high
one. -/
inductive Direction where
  | Oversold
  | Overbought
deriving DecidableEq, Repr

/-- The threshold classification of one reading (app.py line 159 for the
alert condition `rsi is not None and (rsi <= low_th or rsi >= high_th)`,
line 186 for the direction `'<=' if rsi <= low_th else '>='`). -/
def classify (rsi : Option ℚ) (low_th high_th : ℚ) : Option Direction :=
  match rsi with
  | none => none
  | some v =>
    if v ≤ low_th ∨ high_th ≤ v then
      some (if v ≤ low_th then .Oversold else .Overbought)
    else none

/-- One row of the report table (app.py lines 152-157): name, symbol, price,
and the RSI rounded to 2 decimals (None when undefined). -/
structure Row where
  name : String
  symbol : String
  price : Option ℚ
  rsi : Option ℚ
deriving DecidableEq, Repr

instance : Inhabited Row := ⟨⟨"", "", none, none⟩⟩

/-- The per-coin loop of the main logic (app.py lines 139-157): for each
coin, try the candle fetch (its outcome is the oracle `fetchRes`, an
`.error` standing for any raised exception), derive the closes, compute the
RSI; on failure record `None`; always append one row. -/
def runCycle (fetchRes : Coin → Except Unit (List JsonRow))
    (coins : List Coin) (period : ℕ) : List Row :=
  coins.map (fun coin =>
    { name := coin.name
      symbol := coin.symbol
      price := coin.current_price
      rsi :=
        match fetchRes coin with
        | .error _ => none
        | .ok ohlc => (compute_rsi (closes_from_ohlc ohlc) period).map round2 })

/-- Ordering on optional readings used by the report sort: ascending on
defined values, undefined (`None`) placed last (pandas
`na_position="last"`). -/
def optLE : Option ℚ → Option ℚ → Prop
  | none, none => True
  | none, some _ => False
  | some _, none => True
  | some x, some y => x ≤ y

instance : DecidableRel optLE := fun a b =>
  match a, b with
  | none, none => isTrue trivial
  | none, some _ => isFalse (fun h => h)
  | some _, none => isTrue trivial
  | some x, some y => inferInstanceAs (Decidable (x ≤ y))

/-- Row comparison of `df.sort_values(by=["RSI"], ascending=True,
na_position="last")` (app.py line 162). -/
def byRSI (a b : Row) : Prop := optLE a.rsi b.rsi

instance : DecidableRel byRSI := fun a b =>
  inferInstanceAs (Decidable (optLE a.rsi b.rsi))

instance : IsTotal Row byRSI :=
  ⟨fun a b => by
    unfold byRSI optLE
    cases a.rsi with
    | none => cases b.rsi <;> simp
    | some x =>
      cases b.rsi with
      | none => simp
      | some y => exact le_total x y⟩

instance : IsTrans Row byRSI :=
  ⟨fun a b c hab hbc => by
    unfold byRSI optLE at *
    revert hab hbc
    rcases a.rsi with _ | x <;> rcases b.rsi with _ | y <;> rcases c.rsi with _ | z <;>
        intro hab hbc <;>
      first
        | trivial
        | exact hbc
        | exact absurd hab id
        | exact absurd hbc id
        | exact le_trans (show x ≤ y from hab) (show y ≤ z from hbc)⟩

/-- The report sort (app.py line 162), modelled by an insertion sort under
the `byRSI` order. -/
def sort_values (rows : List Row) : List Row := List.insertionSort byRSI rows

/-- The report handed to the presentation layer: the cycle's rows, sorted. -/
def report (fetchRes : Coin → Except Unit (List JsonRow))
    (coins : List Coin) (period : ℕ) : List Row :=
  sort_values (runCycle fetchRes coins period)

/-! ### Helper lemmas -/

lemma abs_min_eq_lossOf (d : ℚ) : |min d 0| = lossOf d := by
  rcases le_total d 0 with h | h
  · rw [min_eq_left h, lossOf, abs_of_nonpos h, max_eq_left (neg_nonneg.mpr h)]
  · rw [min_eq_right h, lossOf, abs_zero, max_eq_right (neg_nonpos.mpr h)]

lemma max_eq_gainOf (d : ℚ) : max d 0 = gainOf d := rfl

lemma length_deltas (closes : List ℚ) : (deltas closes).length = closes.length - 1 := by
  simp only [deltas, List.length_zipWith, List.length_tail]
  omega

lemma getD_deltas (closes : List ℚ) (j : ℕ) (h : j < (deltas closes).length) :
    (deltas closes).getD j 0 = closes.getD (j + 1) 0 - closes.getD j 0 := by
  have hlen : j < closes.length - 1 := by rw [length_deltas] at h; omega
  rw [List.getD_eq_getElem _ _ h, List.getD_eq_getElem _ _ (by omega),
    List.getD_eq_getElem _ _ (by omega : j < closes.length)]
  simp only [deltas]
  rw [List.getElem_zipWith, List.getElem_tail]

lemma range'_map_sub (closes : List ℚ) (s k : ℕ) (h : s + k < closes.length) :
    (List.range' (s + 1) k).map (fun i => closes.getD i 0 - closes.getD (i - 1) 0) =
      ((deltas closes).drop s).take k := by
  apply List.ext_getElem
  · simp only [List.length_map, List.length_range', List.length_take, List.length_drop,
      length_deltas]
    omega
  · intro j h1 h2
    have hj : j < k := by simpa using h1
    have hd : s + j < (deltas closes).length := by rw [length_deltas]; omega
    simp only [List.getElem_map, List.getElem_range', List.getElem_take, List.getElem_drop]
    rw [← List.getD_eq_getElem (deltas closes) 0 hd, getD_deltas closes (s + j) hd]
    have e1 : s + 1 + 1 * j = s + j + 1 := by ring
    rw [e1]
    have e2 : s + j + 1 - 1 = s + j := by omega
    rw [e2]

/-- The body of `compute_rsi` past the length guard computes exactly the
spec-side `wilderAvgs` pair and branches on `|avgLoss| < 1e-12`. -/
lemma compute_rsi_eq_wilder (closes : List ℚ) (period : ℕ)
    (h : period + 1 ≤ closes.length) :
    compute_rsi closes period =
      if |(wilderAvgs closes period).2| < 1 / 10 ^ 12 then some 100
      else some
        (100 - 100 / (1 + (wilderAvgs closes period).1 / (wilderAvgs closes period).2)) := by
  have hch : (fun i => max (closes.getD i 0 - closes.getD (i - 1) 0) 0) =
      gainOf ∘ (fun i : ℕ => closes.getD i 0 - closes.getD (i - 1) 0) := rfl
  have hchl : (fun i => |min (closes.getD i 0 - closes.getD (i - 1) 0) 0|) =
      lossOf ∘ (fun i : ℕ => closes.getD i 0 - closes.getD (i - 1) 0) := by
    funext i
    exact abs_min_eq_lossOf _
  have hgains : (List.range' 1 period).map
        (fun i => max (closes.getD i 0 - closes.getD (i - 1) 0) 0) =
      ((deltas closes).take period).map gainOf := by
    rw [hch, ← List.map_map, show (1 : ℕ) = 0 + 1 from rfl,
      range'_map_sub closes 0 period (by omega), List.drop_zero]
  have hlosses : (List.range' 1 period).map
        (fun i => |min (closes.getD i 0 - closes.getD (i - 1) 0) 0|) =
      ((deltas closes).take period).map lossOf := by
    rw [hchl, ← List.map_map, show (1 : ℕ) = 0 + 1 from rfl,
      range'_map_sub closes 0 period (by omega), List.drop_zero]
  have hbody : (fun (avgs : ℚ × ℚ) (i : ℕ) =>
        ((avgs.1 * ((period : ℚ) - 1) + max (closes.getD i 0 - closes.getD (i - 1) 0) 0) /
            (period : ℚ),
         (avgs.2 * ((period : ℚ) - 1) + |min (closes.getD i 0 - closes.getD (i - 1) 0) 0|) /
            (period : ℚ))) =
      fun avgs i => wilderStep period avgs (closes.getD i 0 - closes.getD (i - 1) 0) := by
    funext avgs i
    simp only [wilderStep, gainOf, lossOf, abs_min_eq_lossOf]
  have hdrop : ((deltas closes).drop period).take (closes.length - (period + 1)) =
      (deltas closes).drop period := by
    apply List.take_of_length_le
    simp only [List.length_drop, length_deltas]
    omega
  have hfold : ∀ init : ℚ × ℚ,
      (List.range' (period + 1) (closes.length - (period + 1))).foldl
        (fun avgs i => wilderStep period avgs (closes.getD i 0 - closes.getD (i - 1) 0)) init =
      ((deltas closes).drop period).foldl (wilderStep period) init := by
    intro init
    rw [← List.foldl_map (fun i : ℕ => closes.getD i 0 - closes.getD (i - 1) 0)
      (wilderStep period) _ init, range'_map_sub closes period (closes.length - (period + 1))
      (by omega), hdrop]
  simp only [compute_rsi, if_neg (by omega : ¬ closes.length < period + 1), hgains, hlosses,
    hbody, hfold, wilderAvgs]

lemma gainOf_nonneg (d : ℚ) : 0 ≤ gainOf d := le_max_right d 0

lemma lossOf_nonneg (d : ℚ) : 0 ≤ lossOf d := le_max_right (-d) 0

lemma lossOf_eq_zero_of_nonneg {d : ℚ} (h : 0 ≤ d) : lossOf d = 0 :=
  max_eq_right (neg_nonpos.mpr h)

/-- Both Wilder averages stay nonnegative along the smoothing fold. -/
lemma foldl_wilderStep_nonneg (period : ℕ) (hp : 1 ≤ period) :
    ∀ (ds : List ℚ) (init : ℚ × ℚ), 0 ≤ init.1 → 0 ≤ init.2 →
      0 ≤ (ds.foldl (wilderStep period) init).1 ∧ 0 ≤ (ds.foldl (wilderStep period) init).2
  | [], init, h1, h2 => ⟨h1, h2⟩
  | d :: ds, init, h1, h2 => by
    rw [List.foldl_cons]
    have hp1 : (1 : ℚ) ≤ (period : ℚ) := by exact_mod_cast hp
    have hpm1 : (0 : ℚ) ≤ (period : ℚ) - 1 := by linarith
    have hp0 : (0 : ℚ) ≤ (period : ℚ) := by linarith
    apply foldl_wilderStep_nonneg period hp ds
    · show 0 ≤ (init.1 * ((period : ℚ) - 1) + gainOf d) / (period : ℚ)
      exact div_nonneg (add_nonneg (mul_nonneg h1 hpm1) (gainOf_nonneg d)) hp0
    · show 0 ≤ (init.2 * ((period : ℚ) - 1) + lossOf d) / (period : ℚ)
      exact div_nonneg (add_nonneg (mul_nonneg h2 hpm1) (lossOf_nonneg d)) hp0

lemma wilderAvgs_nonneg (closes : List ℚ) (period : ℕ) (hp : 1 ≤ period) :
    0 ≤ (wilderAvgs closes period).1 ∧ 0 ≤ (wilderAvgs closes period).2 := by
  unfold wilderAvgs
  apply foldl_wilderStep_nonneg period hp
  · apply div_nonneg _ (by positivity)
    apply List.sum_nonneg
    intro x hx
    obtain ⟨d, _, rfl⟩ := List.mem_map.mp hx
    exact gainOf_nonneg d
  · apply div_nonneg _ (by positivity)
    apply List.sum_nonneg
    intro x hx
    obtain ⟨d, _, rfl⟩ := List.mem_map.mp hx
    exact lossOf_nonneg d

/-- If every delta is a gain, the loss average stays identically zero. -/
lemma foldl_wilderStep_loss_zero (period : ℕ) :
    ∀ (ds : List ℚ) (init : ℚ × ℚ), init.2 = 0 → (∀ d ∈ ds, 0 ≤ d) →
      (ds.foldl (wilderStep period) init).2 = 0
  | [], _, h2, _ => h2
  | d :: ds, init, h2, hds => by
    rw [List.foldl_cons]
    apply foldl_wilderStep_loss_zero period ds
    · show (init.2 * ((period : ℚ) - 1) + lossOf d) / (period : ℚ) = 0
      rw [h2, lossOf_eq_zero_of_nonneg (hds d (List.mem_cons_self d ds))]
      simp
    · intro x hx
      exact hds x (List.mem_cons_of_mem d hx)

/-- A chain of non-decreasing closes has only nonnegative deltas. -/
lemma deltas_nonneg_of_chain {closes : List ℚ}
    (h : List.Chain' (· ≤ ·) closes) : ∀ d ∈ deltas closes, 0 ≤ d := by
  intro d hd
  obtain ⟨j, hj, rfl⟩ := List.mem_iff_getElem.mp hd
  rw [← List.getD_eq_getElem (deltas closes) 0 hj, getD_deltas closes j hj]
  have hj1 : j < closes.length - 1 := by rw [length_deltas] at hj; omega
  have hc := List.chain'_iff_get.mp h j hj1
  simp only [List.get_eq_getElem] at hc
  rw [List.getD_eq_getElem _ _ (by omega), List.getD_eq_getElem _ _ (by omega : j < closes.length)]
  exact sub_nonneg.mpr hc

lemma wilderAvgs_loss_zero_of_chain {closes : List ℚ} (period : ℕ)
    (h : List.Chain' (· ≤ ·) closes) : (wilderAvgs closes period).2 = 0 := by
  unfold wilderAvgs
  apply foldl_wilderStep_loss_zero
  · show (((deltas closes).take period).map lossOf).sum / (period : ℚ) = 0
    rw [List.sum_eq_zero, zero_div]
    intro x hx
    obtain ⟨d, hd, rfl⟩ := List.mem_map.mp hx
    exact lossOf_eq_zero_of_nonneg
      (deltas_nonneg_of_chain h d (List.mem_of_mem_take hd))
  · intro d hd
    exact deltas_nonneg_of_chain h d (List.mem_of_mem_drop hd)

/-! ### Claims -/

/-- Claim C1: for every closes list with at least `period+1` elements and
every period ≥ 2, `compute_rsi` follows the Wilder algorithm: whenever the
final smoothed `avgLoss` is at least `1e-12` in magnitude, the result is
`100 - 100/(1 + avgGain/avgLoss)`, where `(avgGain, avgLoss)` is the pair
`wilderAvgs` built exactly as the spec words it (seed with the means of the
first `period` per-step gains and losses, then one Wilder update per
subsequent delta in chronological order). -/
theorem compute_rsi_follows_wilder (closes : List ℚ) (period : ℕ)
    (hp : 2 ≤ period) (h : period + 1 ≤ closes.length)
    (hloss : 1 / 10 ^ 12 ≤ |(wilderAvgs closes period).2|) :
    compute_rsi closes period =
      some (100 - 100 / (1 + (wilderAvgs closes period).1 / (wilderAvgs closes period).2)) := by
  rw [compute_rsi_eq_wilder closes period h, if_neg (not_lt.mpr hloss)]

theorem compute_rsi_follows_wilder_witness :
    compute_rsi [44, 177/4, 89/2, 175/4, 89/2, 44, 177/4] 3 =
      some (100 - 100 / (1 + (wilderAvgs [44, 177/4, 89/2, 175/4, 89/2, 44, 177/4] 3).1 /
        (wilderAvgs [44, 177/4, 89/2, 175/4, 89/2, 44, 177/4] 3).2)) :=
  compute_rsi_follows_wilder [44, 177/4, 89/2, 175/4, 89/2, 44, 177/4] 3 (by norm_num)
    (by simp)
    (by norm_num [wilderAvgs, deltas, wilderStep, gainOf, lossOf, min_def, max_def,
      abs_eq_max_neg])

/-- Claim C2: for every closes list with fewer than `period+1` elements (any
period ≥ 2), `compute_rsi` returns `none`. The witness instantiates the
concrete scenario: the 7-close series `[44, 44.25, 44.5, 43.75, 44.5, 44.0,
44.25]` with period 13. -/
theorem compute_rsi_insufficient_history (closes : List ℚ) (period : ℕ)
    (hp : 2 ≤ period) (h : closes.length < period + 1) :
    compute_rsi closes period = none := by
  simp only [compute_rsi, if_pos h]

theorem compute_rsi_insufficient_history_witness :
    compute_rsi [44, 177/4, 89/2, 175/4, 89/2, 44, 177/4] 13 = none :=
  compute_rsi_insufficient_history [44, 177/4, 89/2, 175/4, 89/2, 44, 177/4] 13
    (by norm_num) (by simp)

/-- Claim C3: for every closes list with at least `period+1` elements, if the
final smoothed `avgLoss` has absolute value below `1e-12` then `compute_rsi`
returns exactly 100; in particular every monotonically non-decreasing price
series of length greater than `period` yields exactly 100. -/
theorem compute_rsi_zero_loss_gives_100 (closes : List ℚ) (period : ℕ)
    (hp : 2 ≤ period) (h : period + 1 ≤ closes.length) :
    (|(wilderAvgs closes period).2| < 1 / 10 ^ 12 →
        compute_rsi closes period = some 100) ∧
    (List.Chain' (· ≤ ·) closes → compute_rsi closes period = some 100) := by
  constructor
  · intro hsmall
    rw [compute_rsi_eq_wilder closes period h, if_pos hsmall]
  · intro hmono
    rw [compute_rsi_eq_wilder closes period h, if_pos]
    rw [wilderAvgs_loss_zero_of_chain period hmono]
    norm_num

theorem compute_rsi_zero_loss_gives_100_witness :
    compute_rsi [1, 2, 3] 2 = some 100 :=
  (compute_rsi_zero_loss_gives_100 [1, 2, 3] 2 (by norm_num) (by simp)).2
    (by norm_num [List.chain'_cons, List.chain'_singleton])

/-- Claim C4: for every closes list with at least `period+1` elements and
period ≥ 2, any value returned by `compute_rsi` lies in `[0, 100]`. -/
theorem compute_rsi_bounded (closes : List ℚ) (period : ℕ) (v : ℚ)
    (hp : 2 ≤ period) (h : period + 1 ≤ closes.length)
    (hv : compute_rsi closes period = some v) : 0 ≤ v ∧ v ≤ 100 := by
  rw [compute_rsi_eq_wilder closes period h] at hv
  obtain ⟨hg0, hl0⟩ := wilderAvgs_nonneg closes period (by omega)
  by_cases hcase : |(wilderAvgs closes period).2| < 1 / 10 ^ 12
  · rw [if_pos hcase] at hv
    obtain rfl := Option.some.inj hv
    norm_num
  · rw [if_neg hcase] at hv
    set g := (wilderAvgs closes period).1
    set l := (wilderAvgs closes period).2
    have hlpos : 0 < l := by
      rcases lt_or_eq_of_le hl0 with hpos | heq
      · exact hpos
      · exact absurd (by rw [← heq, abs_zero]; norm_num) hcase
    have hr0 : 0 ≤ g / l := div_nonneg hg0 (le_of_lt hlpos)
    have h1r : (1 : ℚ) ≤ 1 + g / l := by linarith
    have hfrac_pos : 0 < 100 / (1 + g / l) := by positivity
    have hfrac_le : 100 / (1 + g / l) ≤ 100 := div_le_self (by norm_num) h1r
    obtain rfl := Option.some.inj hv
    constructor <;> linarith

theorem compute_rsi_bounded_witness :
    0 ≤ (7900 / 139 : ℚ) ∧ (7900 / 139 : ℚ) ≤ 100 :=
  compute_rsi_bounded [44, 177/4, 89/2, 175/4, 89/2, 44, 177/4] 3 (7900 / 139)
    (by norm_num) (by simp)
    (by norm_num [compute_rsi, List.range', min_def, max_def, abs_eq_max_neg])

/-- Claim C5: with thresholds `low < high`, `classify` yields an Oversold
alert iff the defined reading is ≤ the low threshold, an Overbought alert
iff it is ≥ the high threshold (boundaries inclusive), no alert otherwise,
and never an alert for an undefined reading. -/
theorem classify_thresholds (v low_th high_th : ℚ) (hlt : low_th < high_th) :
    (classify (some v) low_th high_th = some Direction.Oversold ↔ v ≤ low_th) ∧
    (classify (some v) low_th high_th = some Direction.Overbought ↔ high_th ≤ v) ∧
    (¬ v ≤ low_th → ¬ high_th ≤ v → classify (some v) low_th high_th = none) ∧
    classify none low_th high_th = none := by
  refine ⟨?_, ?_, ?_, rfl⟩
  · constructor
    · intro hcl
      by_contra hv
      simp only [classify] at hcl
      by_cases hcond : v ≤ low_th ∨ high_th ≤ v
      · rw [if_pos hcond] at hcl
        rw [if_neg hv] at hcl
        exact absurd (Option.some.inj hcl) (by simp)
      · rw [if_neg hcond] at hcl
        exact Option.noConfusion hcl
    · intro hv
      simp only [classify]
      rw [if_pos (Or.inl hv), if_pos hv]
  · constructor
    · intro hcl
      simp only [classify] at hcl
      by_cases hcond : v ≤ low_th ∨ high_th ≤ v
      · rw [if_pos hcond] at hcl
        by_cases hv : v ≤ low_th
        · rw [if_pos hv] at hcl
          exact absurd (Option.some.inj hcl) (by simp)
        · exact hcond.resolve_left hv
      · rw [if_neg hcond] at hcl
        exact Option.noConfusion hcl
    · intro hv
      have hnl : ¬ v ≤ low_th := by
        intro hle
        exact absurd (lt_of_lt_of_le hlt hv) (not_lt.mpr hle)
      simp only [classify]
      rw [if_pos (Or.inr hv), if_neg hnl]
  · intro h1 h2
    simp only [classify]
    rw [if_neg]
    push_neg
    exact ⟨not_le.mp h1, not_le.mp h2⟩

theorem classify_thresholds_witness :
    classify (some 25) 25 75 = some Direction.Oversold ∧
      classify (some 50) 25 75 = none :=
  ⟨((classify_thresholds 25 25 75 (by norm_num)).1).mpr le_rfl,
   (classify_thresholds 50 25 75 (by norm_num)).2.2.1 (by norm_num) (by norm_num)⟩

/-- Claim C7: a first 429 causes exactly one 5-second sleep and one retry
whose payload is returned on success; a non-429 failure propagates at once
with no sleep; a 429 on the retry propagates as an error; the slept time
never exceeds the single 5-second delay. -/
theorem fetch_ohlc_retry_policy (attempt1 attempt2 : HttpResp) :
    (∀ p, attempt1 = HttpResp.success p → fetch_ohlc attempt1 attempt2 = (Except.ok p, 0)) ∧
    (attempt1 = HttpResp.rateLimited →
      (fetch_ohlc attempt1 attempt2).2 = 5 ∧
      (∀ p, attempt2 = HttpResp.success p →
        fetch_ohlc attempt1 attempt2 = (Except.ok p, 5)) ∧
      (attempt2 = HttpResp.rateLimited ∨ attempt2 = HttpResp.httpFailure →
        (fetch_ohlc attempt1 attempt2).1 = Except.error ())) ∧
    (attempt1 = HttpResp.httpFailure → fetch_ohlc attempt1 attempt2 = (Except.error (), 0)) ∧
    (fetch_ohlc attempt1 attempt2).2 ≤ 5 := by
  cases attempt1 <;> cases attempt2 <;>
    simp [fetch_ohlc]

theorem fetch_ohlc_retry_policy_witness :
    (fetch_ohlc HttpResp.rateLimited (HttpResp.success [JsonRow.arr [1, 2, 3, 4, 5]])).2 = 5 ∧
    fetch_ohlc HttpResp.rateLimited (HttpResp.success [JsonRow.arr [1, 2, 3, 4, 5]]) =
      (Except.ok [JsonRow.arr [1, 2, 3, 4, 5]], 5) :=
  ⟨((fetch_ohlc_retry_policy HttpResp.rateLimited
      (HttpResp.success [JsonRow.arr [1, 2, 3, 4, 5]])).2.1 rfl).1,
   ((fetch_ohlc_retry_policy HttpResp.rateLimited
      (HttpResp.success [JsonRow.arr [1, 2, 3, 4, 5]])).2.1 rfl).2.1 _ rfl⟩

lemma closes_from_ohlc_eq_filter_map (ohlc : List JsonRow) :
    closes_from_ohlc ohlc = (ohlc.filter wellFormedRow).map closeOf := by
  induction ohlc with
  | nil => rfl
  | cons row rest ih =>
    cases row with
    | other => simpa [closes_from_ohlc, wellFormedRow, List.filter_cons] using ih
    | arr xs =>
      by_cases hlen : 5 ≤ xs.length
      · simp only [closes_from_ohlc, List.filterMap_cons, List.filter_cons] at *
        rw [if_pos hlen, if_pos (by simpa [wellFormedRow] using hlen)]
        simpa [closeOf] using ih
      · simp only [closes_from_ohlc, List.filterMap_cons, List.filter_cons] at *
        rw [if_neg hlen, if_neg (by simpa [wellFormedRow] using hlen)]
        exact ih

/-- Claim C10: deriving the price series never fails: it keeps, in order, the
close field of every well-formed row, and dropping in a malformed row
anywhere leaves the series unchanged. -/
theorem closes_from_ohlc_skips_malformed (ohlc : List JsonRow) :
    closes_from_ohlc ohlc = (ohlc.filter wellFormedRow).map closeOf ∧
    (∀ pre post r, wellFormedRow r = false →
      closes_from_ohlc (pre ++ r :: post) = closes_from_ohlc (pre ++ post)) := by
  refine ⟨closes_from_ohlc_eq_filter_map ohlc, ?_⟩
  intro pre post r hr
  rw [closes_from_ohlc_eq_filter_map, closes_from_ohlc_eq_filter_map]
  simp [List.filter_append, List.filter_cons, hr]

theorem closes_from_ohlc_skips_malformed_witness :
    closes_from_ohlc [JsonRow.arr [1, 2, 3, 4, 5], JsonRow.other, JsonRow.arr [9, 9],
        JsonRow.arr [0, 0, 0, 0, 7]] =
      closes_from_ohlc [JsonRow.arr [1, 2, 3, 4, 5], JsonRow.arr [9, 9],
        JsonRow.arr [0, 0, 0, 0, 7]] :=
  (closes_from_ohlc_skips_malformed []).2 [JsonRow.arr [1, 2, 3, 4, 5]]
    [JsonRow.arr [9, 9], JsonRow.arr [0, 0, 0, 0, 7]] JsonRow.other rfl



/-- Claim C6: the per-coin loop never loses a row: over any fetched coin
list the cycle produces exactly one row per coin, a coin whose fetch raises
is recorded with an undefined reading, and every other coin is still
processed normally -- no cycle-level fault exists by construction. -/
theorem runCycle_partial_failure (fetchRes : Coin → Except Unit (List JsonRow))
    (coins : List Coin) (period : ℕ) :
    (runCycle fetchRes coins period).length = coins.length ∧
    (∀ i, i < coins.length → fetchRes (coins.getD i default) = Except.error () →
      ((runCycle fetchRes coins period).getD i default).rsi = none) ∧
    (∀ i, i < coins.length → ∀ ohlc, fetchRes (coins.getD i default) = Except.ok ohlc →
      ((runCycle fetchRes coins period).getD i default).rsi =
        (compute_rsi (closes_from_ohlc ohlc) period).map round2) := by
  have hlen : (runCycle fetchRes coins period).length = coins.length := by
    simp [runCycle]
  refine ⟨hlen, ?_, ?_⟩
  · intro i hi herr
    rw [List.getD_eq_getElem _ _ hi] at herr
    rw [List.getD_eq_getElem _ _ (by omega : i < (runCycle fetchRes coins period).length)]
    simp only [runCycle, List.getElem_map]
    rw [herr]
  · intro i hi ohlc hok
    rw [List.getD_eq_getElem _ _ hi] at hok
    rw [List.getD_eq_getElem _ _ (by omega : i < (runCycle fetchRes coins period).length)]
    simp only [runCycle, List.getElem_map]
    rw [hok]

theorem runCycle_partial_failure_witness :
    (runCycle
        (fun c => if c.id = "bad" then Except.error () else
          Except.ok [JsonRow.arr [0, 0, 0, 0, 1], JsonRow.arr [0, 0, 0, 0, 2],
            JsonRow.arr [0, 0, 0, 0, 3]])
        [⟨"bad", "Bad", "BAD", none⟩, ⟨"good", "Good", "GOOD", some 1⟩] 2).length = 2 ∧
    ((runCycle
        (fun c => if c.id = "bad" then Except.error () else
          Except.ok [JsonRow.arr [0, 0, 0, 0, 1], JsonRow.arr [0, 0, 0, 0, 2],
            JsonRow.arr [0, 0, 0, 0, 3]])
        [⟨"bad", "Bad", "BAD", none⟩, ⟨"good", "Good", "GOOD", some 1⟩] 2).getD 0
      default).rsi = none :=
  ⟨(runCycle_partial_failure _ _ 2).1,
   (runCycle_partial_failure _ _ 2).2.1 0 (by norm_num) rfl⟩

lemma optLE_none_left {o : Option ℚ} (h : optLE none o) : o = none := by
  cases o with
  | none => rfl
  | some x => exact absurd h (fun hfalse => hfalse)

/-- Claim C8: for every cycle the report handed to the presentation layer
is sorted ascending by reading value under `byRSI`, is a permutation of the
cycle's rows, and places every undefined reading after all defined ones. -/
theorem report_sorted_none_last (fetchRes : Coin → Except Unit (List JsonRow))
    (coins : List Coin) (period : ℕ) :
    List.Sorted byRSI (report fetchRes coins period) ∧
    (report fetchRes coins period).Perm (runCycle fetchRes coins period) ∧
    (∀ i j, i < j → j < (report fetchRes coins period).length →
      ((report fetchRes coins period).getD i default).rsi = none →
      ((report fetchRes coins period).getD j default).rsi = none) := by
  simp only [report, sort_values]
  refine ⟨List.sorted_insertionSort byRSI _, List.perm_insertionSort byRSI _, ?_⟩
  intro i j hij hj hnone
  have hs : List.Pairwise byRSI
      (List.insertionSort byRSI (runCycle fetchRes coins period)) :=
    List.sorted_insertionSort byRSI (runCycle fetchRes coins period)
  have hi : i < (List.insertionSort byRSI (runCycle fetchRes coins period)).length := by
    omega
  have hbp := List.pairwise_iff_getElem.mp hs i j hi hj hij
  rw [List.getD_eq_getElem _ _ hi] at hnone
  rw [List.getD_eq_getElem _ _ hj]
  have hopt : optLE
      ((List.insertionSort byRSI (runCycle fetchRes coins period))[i].rsi)
      ((List.insertionSort byRSI (runCycle fetchRes coins period))[j].rsi) := hbp
  rw [hnone] at hopt
  exact optLE_none_left hopt

theorem report_sorted_none_last_witness :
    ((report (fun _ => Except.error ())
        [⟨"a", "A", "A", none⟩, ⟨"b", "B", "B", none⟩] 2).getD 1 default).rsi = none :=
  (report_sorted_none_last (fun _ => Except.error ())
      [⟨"a", "A", "A", none⟩, ⟨"b", "B", "B", none⟩] 2).2.2 0 1 (by norm_num)
    (by decide) rfl

lemma ftc_loop_error (pages : ℕ → Except Unit (List Coin)) (n per_page page : ℕ)
    (results : List Coin) (hlt : results.length < n)
    (herr : pages page = Except.error ()) :
    ftc_loop pages n per_page page results = Except.error () := by
  unfold ftc_loop
  rw [dif_pos hlt, herr]

/-- Claim C9: `fetch_top_coins` pages at size `min(250, n)`, returns at
most `n` assets, propagates an error (with no partial result) whenever a
requested page fails, stops on a short page, and stops accumulating once
`n` assets are collected. -/
theorem fetch_top_coins_spec (pages : ℕ → Except Unit (List Coin)) (n : ℕ) :
    (∀ l, fetch_top_coins pages n = Except.ok l → l.length ≤ n) ∧
    (∀ per_page page results, results.length < n → pages page = Except.error () →
      ftc_loop pages n per_page page results = Except.error ()) ∧
    (0 < n → pages 1 = Except.error () → fetch_top_coins pages n = Except.error ()) ∧
    (∀ batch, pages 1 = Except.ok batch → batch ≠ [] → batch.length < min 250 n →
      fetch_top_coins pages n = Except.ok (batch.take n)) ∧
    (∀ batch, 0 < n → pages 1 = Except.ok batch → min 250 n ≤ batch.length →
      n ≤ batch.length → fetch_top_coins pages n = Except.ok (batch.take n)) := by
  refine ⟨?_, ?_, ?_, ?_, ?_⟩
  · intro l hl
    unfold fetch_top_coins at hl
    cases hres : ftc_loop pages n (min 250 n) 1 [] with
    | error e => rw [hres] at hl; exact Except.noConfusion hl
    | ok results =>
      rw [hres] at hl
      obtain rfl := (Except.ok.inj hl)
      simp only [List.length_take]
      omega
  · intro per_page page results hlt herr
    exact ftc_loop_error pages n per_page page results hlt herr
  · intro hn herr
    unfold fetch_top_coins
    rw [ftc_loop_error pages n (min 250 n) 1 [] (by simpa using hn) herr]
  · intro batch hok hne hshort
    have hn : 0 < n := by
      have : 0 < min 250 n := lt_of_le_of_lt (Nat.zero_le _) hshort
      omega
    unfold fetch_top_coins
    unfold ftc_loop
    rw [dif_pos (by simpa using hn), hok]
    simp only []
    rw [dif_neg (by simpa [List.isEmpty_iff] using hne), dif_pos hshort]
    simp
  · intro batch hn hok hper hcount
    have hne : batch ≠ [] := by
      intro hemp
      rw [hemp] at hcount
      simp at hcount
      omega
    unfold fetch_top_coins
    unfold ftc_loop
    rw [dif_pos (by simpa using hn), hok]
    simp only []
    rw [dif_neg (by simpa [List.isEmpty_iff] using hne), dif_neg (not_lt.mpr hper)]
    unfold ftc_loop
    rw [dif_neg (by simp only [List.nil_append]; omega)]
    simp

theorem fetch_top_coins_spec_witness :
    fetch_top_coins
        (fun p => if p = 1 then Except.ok [⟨"btc", "Bitcoin", "BTC", some 1⟩]
          else Except.error ()) 5 =
      Except.ok ([⟨"btc", "Bitcoin", "BTC", some 1⟩].take 5) :=
  (fetch_top_coins_spec
      (fun p => if p = 1 then Except.ok [⟨"btc", "Bitcoin", "BTC", some 1⟩]
        else Except.error ()) 5).2.2.2.1 [⟨"btc", "Bitcoin", "BTC", some 1⟩] rfl
    (by simp) (by norm_num)


end RsiApp
